import Mathlib

open Classical

/-!
Verification of `dnd_demographics.py`.

The source computes a synthetic population distribution over experience levels:
`calc_geometric_ratio` finds the root `r > 1` of `x^n - S*x + (S - 1) = 0`
(equivalently `1 + r + ... + r^(n-1) = S`) with a bracketed root finder,
`generate_per_level_fractions` produces the per-level population fractions
`r^i / S` (reversed so the top level comes last), and `demographic` scales the
fractions by the population, taking the whole part of each count and adding 1
with probability equal to the fractional remainder, with level 0 defined as the
residual `population - sum(other levels)`.

Embedding conventions:
* Python floats are idealised as exact real numbers (`ℝ`); the integer-valued
  inputs `target_sum`/`highest_lvl_ratio` are carried as `ℚ` so that the
  bounded upper-bound search is an executable, decidable computation.
* Python exceptions become `Except DemoError`; the three failure messages of
  the source (`num_levels <= 1`, upper-bound search cap, root-finder
  non-convergence) become the three constructors of `DemoError`.
* The ambient random source (`random.random()`, one uniform draw in `[0,1)`
  per level) becomes an explicit stream `u : ℕ → ℝ` of samples; theorems
  quantify over the stream.
* The source's unbounded `while True` loop in `_get_rough_upper` is embedded
  with a fuel argument; fuel `MAX_ITER` is never exhausted because the loop
  body itself fails once `upper > MAX_ITER`, which is proved below as part of
  the termination claim.
-/

/-- Error taxonomy of the source: the three `ValueError`s raised by
`_get_rough_upper` (invalid `num_levels`, iteration cap reached) and
`calc_geometric_ratio` (root finder did not converge). -/
inductive DemoError where
  | invalidConfiguration
  | boundsNotFound
  | noConvergence
deriving DecidableEq

/-- `_MAX_ITER = 1000` from the source. -/
def MAX_ITER : ℕ := 1000

/-- `_geo_sum(r, n)` from the source: `(1 - r ** n) / (1 - r)`, in exact
rational arithmetic (the source evaluates it on integer `r` with float
division). -/
def geo_sum (r : ℚ) (n : ℕ) : ℚ := (1 - r ^ n) / (1 - r)

/-- The `while True` loop of `_get_rough_upper`: starting from the current
candidate `upper`, return the candidate as soon as its geometric sum exceeds
the target, fail once `upper > _MAX_ITER`, else try `upper + 1`.  The `fuel`
argument only makes the recursion structural; the `fuel = 0` branch is
unreachable from the initial fuel (see the upper-bound search theorems). -/
def get_rough_upper_loop (target_sum : ℚ) (num_levels : ℕ) : ℕ → ℕ → Except DemoError ℕ
  | _, 0 => .error .boundsNotFound
  | upper, fuel + 1 =>
    if geo_sum upper num_levels > target_sum then .ok upper
    else if upper > MAX_ITER then .error .boundsNotFound
    else get_rough_upper_loop target_sum num_levels (upper + 1) fuel

/-- `_get_rough_upper(target_sum, num_levels)` from the source: fails for
`num_levels <= 1`, otherwise runs the search loop starting at `upper = 2`. -/
def get_rough_upper (target_sum : ℚ) (num_levels : ℕ) : Except DemoError ℕ :=
  if num_levels ≤ 1 then .error .invalidConfiguration
  else get_rough_upper_loop target_sum num_levels 2 MAX_ITER

/-- `ratio_formula(x, target_sum)` from the source:
`x ** num_levels - target_sum * x + target_sum - 1`. -/
noncomputable def ratio_formula (x : ℝ) (target_sum : ℚ) (num_levels : ℕ) : ℝ :=
  x ^ num_levels - (target_sum : ℝ) * x + ((target_sum : ℝ) - 1)

/-- The geometric series `∑_{i<n} r^i` that `ratio_formula` was derived from
(`S = (1-r^n)/(1-r)` rearranged, see the source's docstring). -/
noncomputable def geo_series (r : ℝ) (n : ℕ) : ℝ := ∑ i ∈ Finset.range n, r ^ i

/-- Modelled from the spec: `scipy.optimize.root_scalar` (external library
code, not part of this repository) applied to `ratio_formula` on the bracket
`[1 + ε, upper]`.  The spec (§4.1) requires "any bracketed root-finding method
… that guarantees convergence given a valid bracket with opposite-signed
endpoints", so the call is idealised as: if the bracket `(1, upper]` contains
a root of `ratio_formula`, return such a root (exactly — double-precision
convergence tolerance is idealised to zero); otherwise the call fails, which
the source surfaces through its non-convergence `ValueError`. -/
noncomputable def root_scalar (target_sum : ℚ) (num_levels : ℕ) (upper : ℕ) : Except DemoError ℝ :=
  if h : ∃ r : ℝ, 1 < r ∧ r ≤ (upper : ℝ) ∧ ratio_formula r target_sum num_levels = 0
  then .ok h.choose
  else .error .noConvergence

/-- `calc_geometric_ratio(target_sum, num_levels)` from the source: find the
bracket upper bound, then run the bracketed root finder on
`[1 + sys.float_info.epsilon, upper]`. -/
noncomputable def calc_geometric_ratio (target_sum : ℚ) (num_levels : ℕ) : Except DemoError ℝ :=
  match get_rough_upper target_sum num_levels with
  | .error e => .error e
  | .ok upper => root_scalar target_sum num_levels upper

/-- `generate_per_level_fractions(highest_level_ratio, num_levels)` from the
source: `[ratio ** i / highest_level_ratio for i in range(num_levels)]`,
reversed so that the highest level's fraction is at the end. -/
noncomputable def generate_per_level_fractions (highest_level_ratio : ℚ) (num_levels : ℕ) :
    Except DemoError (List ℝ) :=
  match calc_geometric_ratio highest_level_ratio num_levels with
  | .error e => .error e
  | .ok ratio =>
    .ok (((List.range num_levels).map (fun i => ratio ^ i / (highest_level_ratio : ℝ))).reverse)

/-- One loop iteration of `demographic`: `num, extra_prob = divmod(rough_num, 1)`
(i.e. `num = ⌊rough_num⌋`, `extra_prob = rough_num - ⌊rough_num⌋`), then
`if random.random() < extra_prob: num += 1`, and `int(num)` is the integer
count.  `sample` is the uniform draw used by this iteration. -/
noncomputable def level_count (rough_num : ℝ) (sample : ℝ) : ℤ :=
  if sample < Int.fract rough_num then ⌊rough_num⌋ + 1 else ⌊rough_num⌋

/-- The `for level, rough_num in rough_numbers.items()` loop of `demographic`:
the `j`-th fraction (level `j + 1`) is scaled by the population and rounded
with the `k + j`-th random draw, where `k` is the index of the next unused
draw. -/
noncomputable def final_numbers (population : ℤ) (u : ℕ → ℝ) : List ℝ → ℕ → List ℤ
  | [], _ => []
  | f :: rest, k =>
    level_count (f * (population : ℝ)) (u k) :: final_numbers population u rest (k + 1)

/-- `demographic(population, highest_lvl_ratio, num_levels)` from the source.
The returned list is the mapping level ↦ count: index `0` holds
`final_numbers[0] = population - sum(final_numbers.values())` and index
`k ∈ [1, num_levels]` holds the probabilistically rounded count for level `k`.
`u` is the stream of uniform `[0,1)` draws made by `random.random()`. -/
noncomputable def demographic (population : ℤ) (highest_lvl_ratio : ℚ) (num_levels : ℕ)
    (u : ℕ → ℝ) : Except DemoError (List ℤ) :=
  match generate_per_level_fractions highest_lvl_ratio num_levels with
  | .error e => .error e
  | .ok fractions =>
    let counts := final_numbers population u fractions 0
    .ok ((population - counts.sum) :: counts)

/-- `ratio_formula` factors through the geometric series: the source's
rearrangement `S = (1-r^n)/(1-r)  ⇔  r^n - S r + S - 1 = 0`. -/
lemma ratio_formula_factor (x : ℝ) (S : ℚ) (n : ℕ) :
    ratio_formula x S n = (x - 1) * (geo_series x n - (S : ℝ)) := by
  have h := geom_sum_mul x n
  unfold ratio_formula geo_series
  linear_combination (-1 : ℝ) * h

lemma geo_series_one (n : ℕ) : geo_series 1 n = n := by
  simp [geo_series]

lemma geo_series_continuous (n : ℕ) : Continuous fun x : ℝ => geo_series x n := by
  unfold geo_series
  exact continuous_finset_sum _ (fun i _ => continuous_pow i)

lemma geo_series_strict_mono (n : ℕ) (hn : 2 ≤ n) {a b : ℝ} (ha : 1 ≤ a) (hab : a < b) :
    geo_series a n < geo_series b n := by
  unfold geo_series
  apply Finset.sum_lt_sum
  · intro i _
    exact pow_le_pow_left₀ (by linarith) (le_of_lt hab) i
  · exact ⟨1, Finset.mem_range.mpr (by omega), by simpa using hab⟩

/-- For `q ≠ 1` the source's `_geo_sum` formula agrees with the geometric
series. -/
lemma geo_sum_eq_series {q : ℚ} (hq : q ≠ 1) (n : ℕ) :
    geo_sum q n = ∑ i ∈ Finset.range n, q ^ i := by
  unfold geo_sum
  rw [geom_sum_eq hq n]
  have h1 : (1:ℚ) - q ≠ 0 := sub_ne_zero.mpr (Ne.symm hq)
  have h2 : q - 1 ≠ 0 := sub_ne_zero.mpr hq
  field_simp
  ring

/-- Characterisation of the upper-bound search loop: starting from candidate
`start` with the fuel that keeps `start + fuel = 2 + MAX_ITER`, the loop
either returns the first candidate `u ≥ start` whose geometric sum exceeds the
target, or fails with `boundsNotFound` after exhausting the candidates up to
`MAX_ITER + 1`. -/
lemma get_rough_upper_loop_spec (S : ℚ) (n : ℕ) :
    ∀ (fuel start : ℕ), 2 ≤ start → start + fuel = 1002 →
      (∃ u, get_rough_upper_loop S n start fuel = Except.ok u ∧ start ≤ u ∧ u ≤ 1001 ∧
        S < geo_sum u n ∧ ∀ v, start ≤ v → v < u → geo_sum v n ≤ S)
      ∨ (get_rough_upper_loop S n start fuel = Except.error DemoError.boundsNotFound ∧
        ∀ v, start ≤ v → v ≤ 1001 → geo_sum v n ≤ S) := by
  intro fuel
  induction fuel with
  | zero =>
    intro start _ hsum
    right
    refine ⟨rfl, fun v hv1 hv2 => ?_⟩
    omega
  | succ f ih =>
    intro start hst hsum
    by_cases hgt : geo_sum start n > S
    · left
      exact ⟨start, by simp [get_rough_upper_loop, hgt], le_rfl, by omega, hgt,
        fun v hv1 hv2 => by omega⟩
    · by_cases hcap : start > MAX_ITER
      · right
        refine ⟨by simp [get_rough_upper_loop, hgt, hcap], fun v hv1 hv2 => ?_⟩
        have hM : MAX_ITER = 1000 := rfl
        have hv : v = start := by omega
        rw [hv]
        exact le_of_not_lt hgt
      · have hrec := ih (start + 1) (by omega) (by omega)
        have hstep : get_rough_upper_loop S n start (f + 1) =
            get_rough_upper_loop S n (start + 1) f := by
          simp [get_rough_upper_loop, hgt, hcap]
        rcases hrec with ⟨u, hu, h1, h2', h3, h4⟩ | ⟨hu, hall⟩
        · left
          refine ⟨u, hstep.trans hu, by omega, h2', h3, fun v hv1 hv2 => ?_⟩
          rcases eq_or_lt_of_le hv1 with h | h
          · rw [← h]; exact le_of_not_lt hgt
          · exact h4 v (by omega) hv2
        · right
          refine ⟨hstep.trans hu, fun v hv1 hv2 => ?_⟩
          rcases eq_or_lt_of_le hv1 with h | h
          · rw [← h]; exact le_of_not_lt hgt
          · exact hall v (by omega) hv2

/-- What a successful upper-bound search guarantees: `u` is the first
candidate from 2 whose geometric sum exceeds the target sum (and the
configuration was valid). -/
lemma get_rough_upper_ok_spec (S : ℚ) (n u : ℕ) (h : get_rough_upper S n = Except.ok u) :
    2 ≤ n ∧ 2 ≤ u ∧ u ≤ 1001 ∧ S < geo_sum u n ∧ ∀ v, 2 ≤ v → v < u → geo_sum v n ≤ S := by
  by_cases hn : n ≤ 1
  · simp [get_rough_upper, hn] at h
  · have h' : get_rough_upper_loop S n 2 MAX_ITER = Except.ok u := by
      rw [← h]; simp [get_rough_upper, hn]
    rcases get_rough_upper_loop_spec S n MAX_ITER 2 le_rfl (by norm_num [MAX_ITER]) with
      ⟨u', hu', a, b, c, d⟩ | ⟨he, _⟩
    · have : u' = u := Except.ok.inj (hu'.symm.trans h')
      subst this
      exact ⟨by omega, a, b, c, d⟩
    · rw [h'] at he
      exact absurd he (by simp)

/-- If the target exceeds the number of levels and the upper-bound search
found `u`, then the bracket `(1, u]` contains a root of `ratio_formula`. -/
lemma exists_root (S : ℚ) (n u : ℕ) (hn : 2 ≤ n) (hS : (n : ℝ) < (S : ℝ)) (hu2 : 2 ≤ u)
    (hgu : S < geo_sum u n) :
    ∃ r : ℝ, 1 < r ∧ r ≤ (u : ℝ) ∧ ratio_formula r S n = 0 := by
  have h1u : (1 : ℝ) ≤ (u : ℝ) := by
    have : (2 : ℝ) ≤ (u : ℝ) := by exact_mod_cast hu2
    linarith
  have hne : ((u : ℚ)) ≠ 1 := by
    have : (2 : ℚ) ≤ (u : ℚ) := by exact_mod_cast hu2
    intro h
    rw [h] at this
    norm_num at this
  have hgu2 : (S : ℚ) < ∑ i ∈ Finset.range n, (u : ℚ) ^ i := by
    rw [← geo_sum_eq_series hne n]
    exact hgu
  have hgu3 : (S : ℝ) < geo_series (u : ℝ) n := by
    have hc : ((S : ℚ) : ℝ) < ((∑ i ∈ Finset.range n, (u : ℚ) ^ i : ℚ) : ℝ) := by
      exact_mod_cast hgu2
    unfold geo_series
    push_cast at hc
    exact hc
  have hcont : ContinuousOn (fun x : ℝ => geo_series x n) (Set.Icc 1 (u : ℝ)) :=
    (geo_series_continuous n).continuousOn
  have hmem : (S : ℝ) ∈ Set.Ioo (geo_series 1 n) (geo_series (u : ℝ) n) := by
    rw [geo_series_one]
    exact ⟨hS, hgu3⟩
  obtain ⟨r, hrmem, hr⟩ := intermediate_value_Ioo h1u hcont hmem
  refine ⟨r, hrmem.1, le_of_lt hrmem.2, ?_⟩
  have hr' : geo_series r n = (S : ℝ) := hr
  rw [ratio_formula_factor, hr']
  ring

/-- What a successful run of the ratio solver guarantees about the returned
ratio: it exceeds 1 and its geometric series over `num_levels` terms equals
the target sum exactly; moreover the configuration was valid and the target
exceeds the number of levels. -/
lemma calc_ok_spec (S : ℚ) (n : ℕ) (r : ℝ) (h : calc_geometric_ratio S n = Except.ok r) :
    2 ≤ n ∧ 1 < r ∧ geo_series r n = (S : ℝ) ∧ (n : ℝ) < (S : ℝ) := by
  unfold calc_geometric_ratio at h
  cases hg : get_rough_upper S n with
  | error e => rw [hg] at h; exact absurd h (by simp)
  | ok u =>
    rw [hg] at h
    simp only at h
    unfold root_scalar at h
    by_cases hex : ∃ x : ℝ, 1 < x ∧ x ≤ (u : ℝ) ∧ ratio_formula x S n = 0
    · rw [dif_pos hex] at h
      have hch := hex.choose_spec
      have hre : hex.choose = r := Except.ok.inj h
      rw [hre] at hch
      obtain ⟨hr1, _, hr0⟩ := hch
      have hn2 : 2 ≤ n := (get_rough_upper_ok_spec S n u hg).1
      have hgr : geo_series r n = (S : ℝ) := by
        rw [ratio_formula_factor] at hr0
        rcases mul_eq_zero.mp hr0 with h1 | h2
        · exfalso
          have : r = 1 := by linarith [sub_eq_zero.mp h1]
          linarith
        · linarith [sub_eq_zero.mp h2]
      refine ⟨hn2, hr1, hgr, ?_⟩
      have := geo_series_strict_mono n hn2 le_rfl hr1
      rw [geo_series_one, hgr] at this
      exact this
    · rw [dif_neg hex] at h
      exact absurd h (by simp)

/-- If the target exceeds the number of levels and the upper-bound search
succeeds, the ratio solver returns a ratio. -/
lemma calc_ok_of (S : ℚ) (n u : ℕ) (hS : (n : ℚ) < S) (hu : get_rough_upper S n = Except.ok u) :
    ∃ r : ℝ, calc_geometric_ratio S n = Except.ok r := by
  obtain ⟨hn2, hu2, _, hgu, _⟩ := get_rough_upper_ok_spec S n u hu
  have hSR : (n : ℝ) < (S : ℝ) := by exact_mod_cast hS
  have hex := exists_root S n u hn2 hSR hu2 hgu
  refine ⟨hex.choose, ?_⟩
  simp only [calc_geometric_ratio, hu]
  unfold root_scalar
  rw [dif_pos hex]

/-- One unfolding step of the search loop. -/
lemma loop_unfold (S : ℚ) (n upper fuel : ℕ) :
    get_rough_upper_loop S n upper (fuel + 1) =
      if geo_sum upper n > S then Except.ok upper
      else if upper > MAX_ITER then Except.error DemoError.boundsNotFound
      else get_rough_upper_loop S n (upper + 1) fuel := rfl

lemma upper_10_3 : get_rough_upper 10 3 = Except.ok 3 := by
  have e1 : get_rough_upper 10 3 = get_rough_upper_loop 10 3 2 1000 := by
    norm_num [get_rough_upper, MAX_ITER]
  rw [e1, show (1000 : ℕ) = 999 + 1 from rfl, loop_unfold]
  norm_num [geo_sum, MAX_ITER]
  rw [show (999 : ℕ) = 998 + 1 from rfl, loop_unfold]
  norm_num [geo_sum]

/-- What a successful run of the fraction generator guarantees: the returned
list is the reversed sequence `r^i / S` for the solved ratio `r`, whose
geometric series hits the target sum exactly. -/
lemma generate_ok_spec (S : ℚ) (n : ℕ) (fl : List ℝ)
    (h : generate_per_level_fractions S n = Except.ok fl) :
    ∃ r : ℝ, calc_geometric_ratio S n = Except.ok r ∧ 1 < r ∧ geo_series r n = (S : ℝ) ∧
      2 ≤ n ∧ (0 : ℝ) < (S : ℝ) ∧
      fl = ((List.range n).map (fun i => r ^ i / (S : ℝ))).reverse := by
  unfold generate_per_level_fractions at h
  cases hc : calc_geometric_ratio S n with
  | error e => rw [hc] at h; exact absurd h (by simp)
  | ok r =>
    rw [hc] at h
    simp only [Except.ok.injEq] at h
    obtain ⟨hn2, hr1, hgr, hnS⟩ := calc_ok_spec S n r hc
    have hS0 : (0 : ℝ) < (S : ℝ) := by
      have h2 : (2 : ℝ) ≤ (n : ℝ) := by exact_mod_cast hn2
      linarith
    exact ⟨r, rfl, hr1, hgr, hn2, hS0, h.symm⟩

/-- The last fraction is the pre-reversal head `r^0 / S = 1/S`. -/
lemma fractions_getLast (r : ℝ) (S : ℚ) (n : ℕ) (hn : 1 ≤ n) :
    (((List.range n).map (fun i => r ^ i / (S : ℝ))).reverse).getLast? = some (1 / (S : ℝ)) := by
  obtain ⟨m, rfl⟩ : ∃ m, n = m + 1 := ⟨n - 1, by omega⟩
  rw [List.range_succ_eq_map]
  simp only [List.map_cons, List.reverse_cons]
  rw [List.getLast?_concat]
  norm_num

/-- Each per-level count is the floor of the rough number or one more. -/
lemma level_count_or (x u : ℝ) : level_count x u = ⌊x⌋ ∨ level_count x u = ⌊x⌋ + 1 := by
  unfold level_count
  by_cases h : u < Int.fract x
  · right; rw [if_pos h]
  · left; rw [if_neg h]

/-- With a non-negative sample and zero fractional part, the count is exactly
the floor: no probabilistic increment can happen. -/
lemma level_count_exact (x u : ℝ) (hu : 0 ≤ u) (hz : Int.fract x = 0) :
    level_count x u = ⌊x⌋ := by
  unfold level_count
  rw [if_neg]
  rw [hz]
  exact not_lt.mpr hu

lemma level_count_nonneg (x u : ℝ) (hx : 0 ≤ x) : 0 ≤ level_count x u := by
  have h0 : 0 ≤ ⌊x⌋ := Int.floor_nonneg.mpr hx
  rcases level_count_or x u with h | h <;> rw [h] <;> omega

/-- The count is within 1 of the rough (expected) number. -/
lemma level_count_within (x u : ℝ) : |((level_count x u : ℤ) : ℝ) - x| ≤ 1 := by
  have hf1 := Int.floor_le x
  have hf2 := Int.lt_floor_add_one x
  rcases level_count_or x u with h | h <;> rw [h] <;> push_cast <;> rw [abs_le] <;>
    constructor <;> linarith

/-- For a rough number in `(0, 1)` and sample `0`, the increment always
fires: the count is 1. -/
lemma level_count_unit (x : ℝ) (h0 : 0 < x) (h1 : x < 1) : level_count x 0 = 1 := by
  unfold level_count
  rw [if_pos]
  · rw [Int.floor_eq_zero_iff.mpr ⟨le_of_lt h0, h1⟩]
    norm_num
  · rw [Int.fract_eq_self.mpr ⟨le_of_lt h0, h1⟩]
    exact h0

lemma level_count_zero (u : ℝ) (hu : 0 ≤ u) : level_count 0 u = 0 := by
  rw [level_count_exact 0 u hu Int.fract_zero, Int.floor_zero]

lemma final_numbers_length (p : ℤ) (u : ℕ → ℝ) (fl : List ℝ) :
    ∀ k, (final_numbers p u fl k).length = fl.length := by
  induction fl with
  | nil => intro k; rfl
  | cons f rest ih => intro k; simp [final_numbers, ih]

/-- Index access into the allocator loop's output: entry `i` is the rounded
count for the `i`-th fraction, using draw `k + i`. -/
lemma final_numbers_getD (p : ℤ) (u : ℕ → ℝ) (fl : List ℝ) :
    ∀ k i, i < fl.length →
      (final_numbers p u fl k).getD i 0 = level_count (fl.getD i 0 * (p : ℝ)) (u (k + i)) := by
  induction fl with
  | nil => intro k i h; simp at h
  | cons f rest ih =>
    intro k i h
    cases i with
    | zero => simp [final_numbers]
    | succ j =>
      simp only [final_numbers, List.getD_cons_succ]
      rw [ih (k + 1) j (by simpa using h)]
      have : k + 1 + j = k + (j + 1) := by omega
      rw [this]

lemma final_numbers_nonneg (p : ℤ) (u : ℕ → ℝ) (hp : 0 ≤ p) (fl : List ℝ)
    (hfl : ∀ f ∈ fl, 0 ≤ f) :
    ∀ k x, x ∈ final_numbers p u fl k → 0 ≤ x := by
  induction fl with
  | nil => intro k x hx; simp [final_numbers] at hx
  | cons f rest ih =>
    intro k x hx
    simp only [final_numbers, List.mem_cons] at hx
    rcases hx with h | h
    · rw [h]
      apply level_count_nonneg
      apply mul_nonneg (hfl f (by simp))
      exact_mod_cast hp
    · exact ih (fun g hg => hfl g (by simp [hg])) (k + 1) x h

/-- With population 0 every rough number is 0, so (for non-negative samples)
every count is 0. -/
lemma final_numbers_zero (u : ℕ → ℝ) (hu : ∀ k, 0 ≤ u k) (fl : List ℝ) :
    ∀ k, final_numbers 0 u fl k = List.replicate fl.length 0 := by
  induction fl with
  | nil => intro k; rfl
  | cons f rest ih =>
    intro k
    simp only [final_numbers, List.length_cons, List.replicate_succ]
    rw [ih (k + 1)]
    simp [level_count_zero (u k) (hu k)]

lemma replicate_zero_getD (n i : ℕ) : (List.replicate n (0 : ℤ)).getD i 0 = 0 := by
  induction n generalizing i with
  | zero => simp
  | succ m ih =>
    cases i with
    | zero => simp [List.replicate_succ]
    | succ j => simp only [List.replicate_succ, List.getD_cons_succ]; exact ih j

/-- Unfolding a successful allocator run: the result is the level-0 residual
consed onto the per-level counts. -/
lemma demographic_ok_spec (p : ℤ) (S : ℚ) (n : ℕ) (u : ℕ → ℝ) (m : List ℤ)
    (h : demographic p S n u = Except.ok m) :
    ∃ fl, generate_per_level_fractions S n = Except.ok fl ∧
      m = (p - (final_numbers p u fl 0).sum) :: final_numbers p u fl 0 := by
  unfold demographic at h
  cases hg : generate_per_level_fractions S n with
  | error e => rw [hg] at h; exact absurd h (by simp)
  | ok fl =>
    rw [hg] at h
    simp only [Except.ok.injEq] at h
    exact ⟨fl, rfl, h.symm⟩

/-- The solver succeeds on target 10, 3 levels; the returned ratio satisfies
`r² + r = 9` (i.e. `1 + r + r² = 10`) and lies strictly between 2 and 3. -/
lemma calc_10_3 : ∃ r : ℝ, calc_geometric_ratio 10 3 = Except.ok r ∧ 1 < r ∧
    r ^ 2 + r = 9 ∧ 2 < r ∧ r < 3 := by
  obtain ⟨r, hok⟩ := calc_ok_of 10 3 3 (by norm_num) upper_10_3
  obtain ⟨_, hr1, hg, _⟩ := calc_ok_spec 10 3 r hok
  have hexp : geo_series r 3 = 1 + r + r ^ 2 := by
    simp [geo_series, Finset.sum_range_succ]
  rw [hexp] at hg
  have h9 : r ^ 2 + r = 9 := by
    have h10 : ((10 : ℚ) : ℝ) = 10 := by norm_num
    rw [h10] at hg
    linarith
  have h2 : 2 < r := by nlinarith
  have h3 : r < 3 := by nlinarith
  exact ⟨r, hok, hr1, h9, h2, h3⟩

/-- Concrete evaluation of the fraction generator at target 10, 3 levels. -/
lemma fractions_10_3 : ∃ r : ℝ, generate_per_level_fractions 10 3 =
    Except.ok [r ^ 2 / 10, r / 10, 1 / 10] ∧ 1 < r ∧ r ^ 2 + r = 9 ∧ 2 < r ∧ r < 3 := by
  obtain ⟨r, hok, hr1, h9, h2, h3⟩ := calc_10_3
  refine ⟨r, ?_, hr1, h9, h2, h3⟩
  simp only [generate_per_level_fractions, hok]
  rw [show List.range 3 = [0, 1, 2] from rfl]
  norm_num

/-- Concrete allocator run: population 1, ratio 10, 3 levels, all draws 0.
Every rough number lies in `(0, 1)`, so every per-level count rounds up to 1
and the level-0 residual is `1 - 3 = -2`. -/
lemma demographic_one_10_3 :
    demographic 1 10 3 (fun _ => 0) = Except.ok [-2, 1, 1, 1] := by
  obtain ⟨r, hfl, hr1, h9, h2, h3⟩ := fractions_10_3
  have e1 : level_count (r ^ 2 / 10 * ((1 : ℤ) : ℝ)) 0 = 1 := by
    rw [show (((1 : ℤ) : ℝ)) = 1 by norm_num, mul_one]
    exact level_count_unit _ (by nlinarith) (by nlinarith)
  have e2 : level_count (r / 10 * ((1 : ℤ) : ℝ)) 0 = 1 := by
    rw [show (((1 : ℤ) : ℝ)) = 1 by norm_num, mul_one]
    exact level_count_unit _ (by linarith) (by linarith)
  have e3 : level_count ((1 : ℝ) / 10 * ((1 : ℤ) : ℝ)) 0 = 1 := by
    rw [show (((1 : ℤ) : ℝ)) = 1 by norm_num, mul_one]
    exact level_count_unit _ (by norm_num) (by norm_num)
  simp only [demographic, hfl, final_numbers, e1, e2, e3]
  norm_num

/-- Concrete allocator run: population 0, ratio 10, 3 levels, all draws 0.
Every count, level 0 included, is 0. -/
lemma demographic_zero_10_3 :
    demographic 0 10 3 (fun _ => 0) = Except.ok [0, 0, 0, 0] := by
  obtain ⟨r, hfl, _, _, _, _⟩ := fractions_10_3
  have e0 : ∀ x : ℝ, level_count (x * ((0 : ℤ) : ℝ)) 0 = 0 := by
    intro x
    rw [show (((0 : ℤ) : ℝ)) = 0 by norm_num, mul_zero]
    exact level_count_zero 0 le_rfl
  simp only [demographic, hfl, final_numbers, e0]
  norm_num

/-- The last element of a successful generator run is exactly `1/S`. -/
lemma generate_getLast (S : ℚ) (n : ℕ) (fl : List ℝ)
    (h : generate_per_level_fractions S n = Except.ok fl) :
    fl.getLast? = some (1 / (S : ℝ)) := by
  obtain ⟨r, _, _, _, hn2, _, hfl⟩ := generate_ok_spec S n fl h
  rw [hfl]
  exact fractions_getLast r S n (by omega)

/-- Claim C1: whenever the allocator returns a mapping (population ≥ 0,
target sum > 1, more than one level), its counts sum exactly to the
population, for every outcome of the per-level random draws — so also across
repeated calls with identical inputs. -/
theorem claim_C1_sum_eq_population (population : ℤ) (target_sum : ℚ) (num_levels : ℕ)
    (u : ℕ → ℝ) (m : List ℤ) (hp : 0 ≤ population) (hS : 1 < target_sum)
    (hn : 1 < num_levels) (h : demographic population target_sum num_levels u = Except.ok m) :
    m.sum = population := by
  obtain ⟨fl, _, rfl⟩ := demographic_ok_spec population target_sum num_levels u m h
  rw [List.sum_cons]
  ring

/-- Witness for C1 at population 1, ratio 10, 3 levels, all draws 0. -/
theorem claim_C1_witness :
    (0 : ℤ) ≤ 1 ∧ (1 : ℚ) < 10 ∧ 1 < 3 ∧
      demographic 1 10 3 (fun _ => 0) = Except.ok [-2, 1, 1, 1] ∧
      ([-2, 1, 1, 1] : List ℤ).sum = 1 :=
  ⟨by decide, by norm_num, by decide, demographic_one_10_3,
    claim_C1_sum_eq_population 1 10 3 (fun _ => 0) [-2, 1, 1, 1] (by decide) (by norm_num)
      (by decide) demographic_one_10_3⟩

/-- Claim C4: the last element of a successful generator run equals
`1/target_sum` exactly — it is the pre-reversal value `v_0 = r^0/target_sum`
placed last by the reversal. -/
theorem claim_C4_last_fraction (target_sum : ℚ) (num_levels : ℕ) (fl : List ℝ)
    (h : generate_per_level_fractions target_sum num_levels = Except.ok fl) :
    fl.getLast? = some (1 / (target_sum : ℝ)) :=
  generate_getLast target_sum num_levels fl h

/-- Witness for C4 at target 10, 3 levels. -/
theorem claim_C4_witness :
    (generate_per_level_fractions 10 3).map List.getLast? =
      Except.ok (some (1 / (10 : ℝ))) := by
  obtain ⟨r, hfl, _, _, _, _⟩ := fractions_10_3
  rw [hfl]
  simp only [Except.map]
  rw [claim_C4_last_fraction 10 3 _ hfl]
  norm_num

/-- Claim C7: for every target sum, if `num_levels ≤ 1` the ratio solver
fails with the invalid-configuration error (raised before any upper-bound
search or root finding) instead of returning a ratio. -/
theorem claim_C7_invalid_configuration (target_sum : ℚ) (num_levels : ℕ)
    (hn : num_levels ≤ 1) :
    calc_geometric_ratio target_sum num_levels =
      Except.error DemoError.invalidConfiguration := by
  simp [calc_geometric_ratio, get_rough_upper, hn]

/-- Witness for C7 at `num_levels = 1` and `num_levels = 0`. -/
theorem claim_C7_witness :
    (1 : ℕ) ≤ 1 ∧ (0 : ℕ) ≤ 1 ∧
      calc_geometric_ratio 10 1 = Except.error DemoError.invalidConfiguration ∧
      calc_geometric_ratio 10 0 = Except.error DemoError.invalidConfiguration :=
  ⟨by decide, by decide, claim_C7_invalid_configuration 10 1 (by decide),
    claim_C7_invalid_configuration 10 0 (by decide)⟩

/-- Claim C8: for every target sum and `num_levels > 1` the upper-bound
search terminates with a definite outcome: it returns the first candidate
(counting up from 2 in steps of 1) whose geometric sum exceeds the target, or
it fails with the bounds-not-found error after the iteration cap — candidates
2 through 1001, i.e. 1000 iterations — without the sum surpassing the target.
It never loops indefinitely (the embedding is total). -/
theorem claim_C8_upper_search (target_sum : ℚ) (num_levels : ℕ) (hn : 1 < num_levels) :
    (∃ u, get_rough_upper target_sum num_levels = Except.ok u ∧ 2 ≤ u ∧
        target_sum < geo_sum u num_levels ∧
        ∀ v : ℕ, 2 ≤ v → v < u → geo_sum v num_levels ≤ target_sum) ∨
      (get_rough_upper target_sum num_levels = Except.error DemoError.boundsNotFound ∧
        ∀ v : ℕ, 2 ≤ v → v ≤ 1001 → geo_sum v num_levels ≤ target_sum) := by
  have hno : ¬ (num_levels ≤ 1) := by omega
  have hre : get_rough_upper target_sum num_levels =
      get_rough_upper_loop target_sum num_levels 2 MAX_ITER := by
    simp [get_rough_upper, hno]
  rcases get_rough_upper_loop_spec target_sum num_levels MAX_ITER 2 le_rfl
      (by norm_num [MAX_ITER]) with ⟨u, hu, a, b, c, d⟩ | ⟨he, hall⟩
  · exact Or.inl ⟨u, hre.trans hu, a, c, d⟩
  · exact Or.inr ⟨hre.trans he, hall⟩

/-- Witness for C8 at target 10, 3 levels. -/
theorem claim_C8_witness :
    1 < 3 ∧
      ((∃ u, get_rough_upper 10 3 = Except.ok u ∧ 2 ≤ u ∧ (10 : ℚ) < geo_sum u 3 ∧
          ∀ v : ℕ, 2 ≤ v → v < u → geo_sum v 3 ≤ 10) ∨
        (get_rough_upper 10 3 = Except.error DemoError.boundsNotFound ∧
          ∀ v : ℕ, 2 ≤ v → v ≤ 1001 → geo_sum v 3 ≤ 10)) :=
  ⟨by decide, claim_C8_upper_search 10 3 (by decide)⟩

/-- Claim C10: for every valid input, every level `k ∈ 1..num_levels` and
every outcome of the draws (samples in `[0,1)`, here only `0 ≤ u k` is
needed), the count for level `k` is `⌊fractions[k-1]·population⌋` or that
plus 1, hence within 1 of the rough expected value
`fractions[k-1]·population`; it is non-negative for population ≥ 0; it is
deterministic — equal to the exact value with no possible increment, the
sample never being below 0 — whenever `fractions[k-1]·population` is an exact
integer; and for population 0 every level's count, level 0 included, is 0. -/
theorem claim_C10_per_level_rounding (population : ℤ) (target_sum : ℚ) (num_levels : ℕ)
    (u : ℕ → ℝ) (fl : List ℝ) (m : List ℤ) (hp : 0 ≤ population) (hu : ∀ k, 0 ≤ u k)
    (hfl : generate_per_level_fractions target_sum num_levels = Except.ok fl)
    (h : demographic population target_sum num_levels u = Except.ok m) :
    (∀ k, 1 ≤ k → k ≤ num_levels →
      (m.getD k 0 = ⌊fl.getD (k - 1) 0 * (population : ℝ)⌋ ∨
        m.getD k 0 = ⌊fl.getD (k - 1) 0 * (population : ℝ)⌋ + 1) ∧
      |((m.getD k 0 : ℤ) : ℝ) - fl.getD (k - 1) 0 * (population : ℝ)| ≤ 1 ∧
      0 ≤ m.getD k 0 ∧
      (∀ z : ℤ, fl.getD (k - 1) 0 * (population : ℝ) = (z : ℝ) → m.getD k 0 = z)) ∧
    (population = 0 → ∀ k, k ≤ num_levels → m.getD k 0 = 0) := by
  obtain ⟨fl', hfl', hm⟩ := demographic_ok_spec population target_sum num_levels u m h
  have hfl2 : fl' = fl := by
    rw [hfl'] at hfl
    exact Except.ok.inj hfl
  rw [hfl2] at hm
  subst hm
  obtain ⟨r, _, hr1, _, _, hS0, hfleq⟩ := generate_ok_spec _ _ _ hfl
  have hlen : fl.length = num_levels := by rw [hfleq]; simp
  have hmemnn : ∀ f ∈ fl, (0 : ℝ) ≤ f := by
    rw [hfleq]
    intro x hx
    rw [List.mem_reverse, List.mem_map] at hx
    obtain ⟨i, _, rfl⟩ := hx
    have hr0 : (0 : ℝ) < r := by linarith
    exact le_of_lt (div_pos (pow_pos hr0 i) hS0)
  constructor
  · intro k hk1 hk2
    obtain ⟨j, rfl⟩ : ∃ j, k = j + 1 := ⟨k - 1, by omega⟩
    have hj : j < fl.length := by omega
    simp only [Nat.add_sub_cancel, List.getD_cons_succ]
    rw [final_numbers_getD population u fl 0 j hj]
    simp only [Nat.zero_add]
    refine ⟨level_count_or _ _, level_count_within _ _, ?_, ?_⟩
    · apply level_count_nonneg
      apply mul_nonneg
      · rw [List.getD_eq_getElem fl 0 hj]
        exact hmemnn _ (List.getElem_mem hj)
      · exact_mod_cast hp
    · intro z hz
      rw [hz, level_count_exact _ _ (hu j) (Int.fract_intCast z), Int.floor_intCast]
  · intro hp0 k hk
    subst hp0
    rw [final_numbers_zero u hu fl 0]
    cases k with
    | zero =>
      simp only [List.getD_cons_zero]
      simp [List.sum_replicate]
    | succ j =>
      rw [List.getD_cons_succ]
      exact replicate_zero_getD fl.length j

/-- Witness for C10 at population 0, ratio 10, 3 levels (conclusion
instantiated at level 1 and, for the population-0 part, at level 0). -/
theorem claim_C10_witness :
    0 ≤ ([0, 0, 0, 0] : List ℤ).getD 1 0 ∧ ([0, 0, 0, 0] : List ℤ).getD 0 0 = 0 := by
  obtain ⟨r, hfl, hr1, h9, h2, h3⟩ := fractions_10_3
  have h := claim_C10_per_level_rounding 0 10 3 (fun _ => 0) [r ^ 2 / 10, r / 10, 1 / 10]
    [0, 0, 0, 0] le_rfl (fun _ => le_rfl) hfl demographic_zero_10_3
  exact ⟨(h.1 1 (by decide) (by decide)).2.2.1, h.2 rfl 0 (by decide)⟩
